import Mathlib

/-!
Verification of the goget batch downloader (goget.go) against its
natural-language specification.  The Go program is shallowly embedded:
strings become `List Char`, the global `filemap` becomes an association
list, the filesystem effects relevant to publishing become explicit
stores, and the dispatcher's channel discipline becomes a labelled
transition system.
-/

namespace Goget

/-- Strings are modelled as lists of characters (Go strings are byte sequences). -/
abbrev Str := List Char

/-- Model of Go `strings.HasPrefix(s, p)`. -/
def strStartsWith (s p : Str) : Bool :=
  p.isPrefixOf s

/-- Helper for `strings.Cut`: locate the first occurrence of `sep` in the
string, returning the parts before and after it, or `none` when absent. -/
def cutFrom (sep : Str) : Str → Option (Str × Str)
  | [] => if sep = [] then some ([], []) else none
  | c :: rest =>
    if sep.isPrefixOf (c :: rest) then some ([], (c :: rest).drop sep.length)
    else (cutFrom sep rest).map fun p => (c :: p.1, p.2)

/-- Model of Go `strings.Cut(s, sep)`: `(before, after, found)` around the
first occurrence of `sep`; `(s, "", false)` when `sep` does not occur. -/
def cut (s sep : Str) : Str × Str × Bool :=
  match cutFrom sep s with
  | some (b, a) => (b, a, true)
  | none => (s, [], false)

/-- Model of Go `strings.Split(s, "/")`: the `/`-separated pieces of `s`,
always at least one piece. -/
def splitSlash : Str → List Str
  | [] => [[]]
  | c :: rest =>
    if c = '/' then [] :: splitSlash rest
    else
      match splitSlash rest with
      | [] => [[c]]
      | h :: t => (c :: h) :: t

/-- The characters of the literal `http://`. -/
def httpSchemeChars : Str := ['h', 't', 't', 'p', ':', '/', '/']

/-- The characters of the literal `https://`. -/
def httpsSchemeChars : Str := ['h', 't', 't', 'p', 's', ':', '/', '/']

/-- The characters of the literal `://`. -/
def schemeSepChars : Str := [':', '/', '/']

/-- The characters of the literal `/`. -/
def slashChars : Str := ['/']

/-- The characters of the literal `index.html`. -/
def indexHtmlChars : Str := ['i', 'n', 'd', 'e', 'x', '.', 'h', 't', 'm', 'l']

/-- URL normalization at the top of `prepUrl` (goget.go lines 94-96):
prepend `http://` when the URL starts with neither `http://` nor `https://`. -/
def normalizeUrl (url : Str) : Str :=
  if strStartsWith url httpSchemeChars || strStartsWith url httpsSchemeChars then url
  else httpSchemeChars ++ url

/-- Destination-filename derivation in `prepUrl` (goget.go lines 101-109):
cut away everything through `://`, cut away everything through the next `/`,
split the remainder on `/` and keep the last piece, falling back to
`index.html` when that piece is empty. -/
def deriveFname (url : Str) : Str :=
  let f1 := (cut url schemeSepChars).2.1
  let f2 := (cut f1 slashChars).2.1
  let parts := splitSlash f2
  let fname := parts.getLastD []
  if fname = [] then indexHtmlChars else fname

/-- Spec-side notion for C9: the final `/`-delimited segment of a string,
i.e. everything after the last `/` (the whole string when it has no `/`). -/
def lastSegment (s : Str) : Str :=
  (s.reverse.takeWhile (fun c => c ≠ '/')).reverse

/-- Spec-side notion for C9: the URL with the scheme and the host removed,
i.e. everything after the first `/` that follows `://`. -/
def afterSchemeAndHost (url : Str) : Str :=
  (cut (cut url schemeSepChars).2.1 slashChars).2.1

/-- The characters of `http://example.com/a/b.txt`. -/
def exampleUrlDeep : Str :=
  ['h', 't', 't', 'p', ':', '/', '/', 'e', 'x', 'a', 'm', 'p', 'l', 'e', '.',
   'c', 'o', 'm', '/', 'a', '/', 'b', '.', 't', 'x', 't']

/-- The characters of `http://example.com/`. -/
def exampleUrlRoot : Str :=
  ['h', 't', 't', 'p', ':', '/', '/', 'e', 'x', 'a', 'm', 'p', 'l', 'e', '.',
   'c', 'o', 'm', '/']

/-- The fixed chunk size of the copy loop (`buf := make([]byte, 4096)`). -/
def bufSize : Nat := 4096

/-- Read errors distinguished by the copy loop, following the `io.ReadFull`
contract. -/
inductive ReadErr
  | eof
  | unexpectedEof
  | other
deriving DecidableEq

/-- Model of `io.ReadFull(reader, buf)`: given whether the stream fails with
a genuine read error once its bytes run out (`errAtEnd`) and the remaining
bytes, return the chunk read, the remaining bytes, and the error result
(`none` when the buffer was filled completely; `unexpectedEof` when the
stream ended cleanly mid-chunk; the underlying error when it failed). -/
def readFull (errAtEnd : Bool) (bytes : List Nat) :
    List Nat × List Nat × Option ReadErr :=
  if bufSize ≤ bytes.length then
    (bytes.take bufSize, bytes.drop bufSize, none)
  else if bytes.length = 0 then
    ([], [], some (if errAtEnd then ReadErr.other else ReadErr.eof))
  else
    (bytes, [], some (if errAtEnd then ReadErr.other else ReadErr.unexpectedEof))

/-- How the copy loop's `for` was exited. -/
inductive LoopExit
  | cleanEof
  | readFailed
  | writeFailed
deriving DecidableEq

/-- State carried through the copy loop: the bytes left to read, the bytes
handed to the buffered writer so far, the number of `Write` calls made, and
whether `rm()` has run on the temp file. -/
structure LoopState where
  toRead : List Nat
  written : List Nat
  writeCalls : Nat
  removed : Bool
deriving DecidableEq

/-- The copy loop of `getUrl` (goget.go lines 72-89), fuelled.  Each
iteration does one `io.ReadFull`; `io.EOF` breaks the loop cleanly, any
other genuine read error removes the temp file and breaks, otherwise the
chunk (full, or short on `ErrUnexpectedEOF`) is written, a failing write
removing the temp file and breaking.  `writeOks i` is the oracle result of
the `i`-th `Write` call. -/
def copyLoopF (errAtEnd : Bool) (writeOks : Nat → Bool) :
    Nat → LoopState → Option (LoopState × LoopExit)
  | 0, _ => none
  | fuel + 1, st =>
    match readFull errAtEnd st.toRead with
    | (_, _, some ReadErr.eof) => some (st, LoopExit.cleanEof)
    | (_, rest, some ReadErr.other) =>
      some ({ st with toRead := rest, removed := true }, LoopExit.readFailed)
    | (chunk, rest, _) =>
      if writeOks st.writeCalls then
        copyLoopF errAtEnd writeOks fuel
          ⟨rest, st.written ++ chunk, st.writeCalls + 1, st.removed⟩
      else
        some (⟨rest, st.written, st.writeCalls + 1, true⟩, LoopExit.writeFailed)

/-- The copy loop run from the start of a body, with fuel one more than the
body length, which is always sufficient (`copyLoopF_isSome`). -/
def copyLoop (errAtEnd : Bool) (writeOks : Nat → Bool) (bytes : List Nat) :
    Option (LoopState × LoopExit) :=
  copyLoopF errAtEnd writeOks (bytes.length + 1) ⟨bytes, [], 0, false⟩

/-- Oracle inputs for one `getUrl` execution: the results of the external
calls it makes. -/
structure FetchEnv where
  createOk : Bool
  httpOk : Bool
  bodyBytes : List Nat
  bodyErrAtEnd : Bool
  writeOks : Nat → Bool

/-- Observable outcome of one `getUrl` execution: values sent on the
completion channel, final temp-file contents (`none` when removed), and
error lines printed to standard error. -/
structure FetchResult where
  chanSends : Nat
  file : Option (List Nat)
  stderrLines : Nat

/-- The body of `getUrl` without the deferred send: `os.Create` failure and
`http.Get` failure report, remove the temp file and return; otherwise the
copy loop runs and the file survives exactly when the loop exits cleanly. -/
def getUrlBody (env : FetchEnv) : FetchResult :=
  if !env.createOk then { chanSends := 0, file := none, stderrLines := 1 }
  else if !env.httpOk then { chanSends := 0, file := none, stderrLines := 1 }
  else
    match copyLoop env.bodyErrAtEnd env.writeOks env.bodyBytes with
    | some (fin, LoopExit.cleanEof) =>
      { chanSends := 0, file := some fin.written, stderrLines := 0 }
    | some (_, _) => { chanSends := 0, file := none, stderrLines := 1 }
    | none => { chanSends := 0, file := none, stderrLines := 0 }

/-- Model of `getUrl` (goget.go lines 41-91): the `defer` at line 42 sends
one value on the completion channel when the body finishes, on every path. -/
def getUrl (env : FetchEnv) : FetchResult :=
  let r := getUrlBody env
  { r with chanSends := r.chanSends + 1 }

/-- One registry entry (`type filename`, goget.go lines 32-36): `n` counts
how many times the URL has been dispatched, `name` is the destination
filename, `tmpfiles` the queued temporary file paths. -/
structure filename where
  n : Nat
  name : Str
  tmpfiles : List Str
deriving DecidableEq

/-- The zero value of `filename`, which a Go map lookup returns for an
absent key. -/
def filename.zero : filename := ⟨0, [], []⟩

/-- Association-list lookup, modelling Go map indexing with the `ok` flag
observable as `Option`. -/
def alFind {β : Type} : List (Str × β) → Str → Option β
  | [], _ => none
  | (k, v) :: rest, u => if k = u then some v else alFind rest u

/-- Association-list store, modelling Go map assignment. -/
def alSet {β : Type} : List (Str × β) → Str → β → List (Str × β)
  | [], u, v => [(u, v)]
  | (k, w) :: rest, u, v =>
    if k = u then (u, v) :: rest else (k, w) :: alSet rest u v

/-- Association-list removal, modelling `os.Remove` on a file store. -/
def alRemove {β : Type} : List (Str × β) → Str → List (Str × β)
  | [], _ => []
  | (k, w) :: rest, u => if k = u then alRemove rest u else (k, w) :: alRemove rest u

/-- `filemap` maps URLs to `filename` entries. -/
abbrev FileMap := List (Str × filename)

/-- Go map read `filemap[url]`: the entry, or the zero value when absent. -/
def fmGet (fm : FileMap) (u : Str) : filename :=
  (alFind fm u).getD filename.zero

/-- Modelled fresh path for `os.CreateTemp(d, fname+"*")`: directory, slash,
the prefix `fname`, and a fresh suffix drawn from the counter `k`.  The code
delegates collision-free naming to the filesystem; the model realizes it
with a suffix of strictly growing length. -/
def tmpPath (d fname : Str) (k : Nat) : Str :=
  d ++ '/' :: fname ++ '_' :: List.replicate k 'x'

/-- Result of one `prepUrl` call: the returned value, the updated registry,
the updated fresh-name counter, and the path of the temp file created. -/
structure PrepResult where
  ret : Except Unit Str
  fm : FileMap
  ctr : Nat
  created : Option Str

/-- Model of `prepUrl` (goget.go lines 93-121): normalize the URL, read the
registry entry (zero value when absent), derive the filename, create the
temp file (`createOk` is the oracle result of `os.CreateTemp`); on success
set `name`, append the new path and return the normalized URL; on failure
return the error without touching the entry's fields.  The deferred write
at line 99 stores the entry back on every path. -/
def prepUrl (fm : FileMap) (url0 d : Str) (createOk : Bool) (k : Nat) : PrepResult :=
  let url := normalizeUrl url0
  let fmentry := fmGet fm url
  let fname := deriveFname url
  if createOk then
    let path := tmpPath d fname k
    let entry := { fmentry with name := fname, tmpfiles := fmentry.tmpfiles ++ [path] }
    { ret := Except.ok url, fm := alSet fm url entry, ctr := k + 1, created := some path }
  else
    { ret := Except.error (), fm := alSet fm url fmentry, ctr := k, created := none }

/-- Go error values relevant to the publish path. -/
inductive GoErr
  | notExist
  | otherErr
deriving DecidableEq

/-- The report test at goget.go lines 151-153 exactly as written: it
examines `err`, which still holds the (nil) `os.MkdirTemp` result from line
133 when the deferred function runs — the result of `os.Rename` on line 145
is discarded, so `renameResult` is never consulted. -/
def renameReported (outerErr : Option GoErr) (_renameResult : Option GoErr) : Bool :=
  match outerErr with
  | none => false
  | some e => decide (e ≠ GoErr.notExist)

/-- State of a whole run, threaded through the three phases: the registry,
the `urls` slice, the fresh-name counter, the working-directory file store,
the current-directory (destination) file store, the count of stderr lines,
the attempted renames `(url, source path, destination name)` in order, and
whether any slice access was out of range (where Go would panic). -/
structure RunState where
  fm : FileMap
  urls : List Str
  ctr : Nat
  tmp : List (Str × List Nat)
  dest : List (Str × List Nat)
  stderrLines : Nat
  renames : List (Str × Str × Str)
  oob : Bool

/-- The state at the top of `main`, after the working directory is made. -/
def initState : RunState :=
  { fm := [], urls := [], ctr := 0, tmp := [], dest := [], stderrLines := 0,
    renames := [], oob := false }

/-- One iteration of the allocation loop (goget.go lines 167-174): call
`prepUrl`; on error print it and continue; on success append the normalized
URL to `urls`.  The created temp file appears empty in the working
directory. -/
def allocStep (d : Str) (s : RunState) (arg : Str) (createOk : Bool) : RunState :=
  let r := prepUrl s.fm arg d createOk s.ctr
  match r.ret, r.created with
  | Except.ok url, some path =>
    { s with
      fm := r.fm
      ctr := r.ctr
      urls := s.urls ++ [url]
      tmp := alSet s.tmp path [] }
  | _, _ =>
    { s with fm := r.fm, ctr := r.ctr, stderrLines := s.stderrLines + 1 }

/-- The allocation loop over the argument list, each argument paired with
its `os.CreateTemp` oracle result. -/
def allocList (d : Str) : List (Str × Bool) → RunState → RunState
  | [], s => s
  | (arg, ok) :: rest, s => allocList d rest (allocStep d s arg ok)

/-- One iteration of the dispatch loop (goget.go lines 178-189) combined
with the file effect of the Fetcher it spawns: look the URL up (absent
entries are skipped), read `tmpfiles[n]`, increment `n`, and run the fetch;
a successful fetch leaves the body bytes in the temp file, a failed one has
removed it.  An out-of-range `tmpfiles[n]` (where Go panics) sets `oob`. -/
def dispatchStep (s : RunState) (url : Str) (env : FetchEnv) : RunState :=
  match alFind s.fm url with
  | none => s
  | some fmentry =>
    let fm := alSet s.fm url { fmentry with n := fmentry.n + 1 }
    match fmentry.tmpfiles.get? fmentry.n with
    | none => { s with fm := fm, oob := true }
    | some path =>
      let r := getUrl env
      match r.file with
      | some bytes =>
        { s with
          fm := fm
          tmp := alSet s.tmp path bytes
          stderrLines := s.stderrLines + r.stderrLines }
      | none =>
        { s with
          fm := fm
          tmp := alRemove s.tmp path
          stderrLines := s.stderrLines + r.stderrLines }

/-- The dispatch loop over the `urls` slice; `envs i` is the oracle
environment of the Fetcher spawned for the `i`-th entry. -/
def dispatchList (envs : Nat → FetchEnv) : List Str → Nat → RunState → RunState
  | [], _, s => s
  | url :: rest, i, s => dispatchList envs rest (i + 1) (dispatchStep s url (envs i))

/-- One `rename(url)` call of the Publisher (goget.go lines 139-154): read
the entry, attempt `os.Rename(tmpfiles[0], fentry.name)` — which moves the
temp file onto the destination name when it exists, and fails with
`ErrNotExist` when a failed fetch removed it — then pop the front path (the
deferred write at lines 141-144).  Nothing is ever reported because the
`err` tested at line 151 is the nil `MkdirTemp` error, not the rename's
(see `renameReported`).  An empty `tmpfiles` (where Go panics on
`tmpfiles[0]`) sets `oob`. -/
def publishStep (s : RunState) (url : Str) : RunState :=
  let fentry := fmGet s.fm url
  match fentry.tmpfiles with
  | [] => { s with oob := true }
  | src :: rest =>
    let renameResult : Option GoErr :=
      match alFind s.tmp src with
      | some _ => none
      | none => some GoErr.notExist
    let tmp' := alRemove s.tmp src
    let dest' :=
      match alFind s.tmp src with
      | some bytes => alSet s.dest fentry.name bytes
      | none => s.dest
    { s with
      fm := alSet s.fm url { fentry with tmpfiles := rest }
      tmp := tmp'
      dest := dest'
      renames := s.renames ++ [(url, src, fentry.name)]
      stderrLines := s.stderrLines + (if renameReported none renameResult then 1 else 0) }

/-- The publish loop over the `urls` slice (goget.go lines 156-158). -/
def publishList : List Str → RunState → RunState
  | [], s => s
  | url :: rest, s => publishList rest (publishStep s url)

/-- Outcome of a whole run: the final state, whether `os.Remove(tmpdir)`
succeeded, and the exit code. -/
structure RunOutcome where
  state : RunState
  dirRemoved : Bool
  exitCode : Nat

/-- Teardown (goget.go lines 160-164): the working directory is removed
only when it is empty; failure is reported and exits with status 1. -/
def teardown (s : RunState) : RunOutcome :=
  if s.tmp = [] then { state := s, dirRemoved := true, exitCode := 0 }
  else { state := { s with stderrLines := s.stderrLines + 1 }, dirRemoved := false,
         exitCode := 1 }

/-- A whole run of `main` after flag parsing and `MkdirTemp`: allocation
over the arguments, dispatch over `urls`, then the deferred publish over
`urls` and the teardown. -/
def run (d : Str) (args : List (Str × Bool)) (envs : Nat → FetchEnv) : RunOutcome :=
  let sA := allocList d args initState
  let sD := dispatchList envs sA.urls 0 sA
  let sP := publishList sD.urls sD
  teardown sP

/-- Invariant established by the allocation phase: no entry has been
dispatched yet, and each entry holds exactly one queued temp path per
occurrence of its URL in `urls`. -/
def allocInv (s : RunState) : Prop :=
  ∀ u : Str, (fmGet s.fm u).n = 0
    ∧ (fmGet s.fm u).tmpfiles.length = s.urls.count u

/-- During dispatch with `rem` still to process, each entry has enough
queued temp paths for its dispatched count plus its remaining occurrences. -/
def dispInv (rem : List Str) (s : RunState) : Prop :=
  ∀ u : Str, (fmGet s.fm u).n + rem.count u ≤ (fmGet s.fm u).tmpfiles.length

/-- The rename attempts recorded for one URL: their `(source, destination)`
pairs, in order. -/
def renamesFor (u : Str) (evs : List (Str × Str × Str)) : List (Str × Str) :=
  (evs.filter (fun e => decide (e.1 = u))).map (fun e => e.2)

/-- Before publishing the remaining URLs `rem`, each entry still holds at
least one queued path per remaining occurrence. -/
def pubInv (rem : List Str) (s : RunState) : Prop :=
  ∀ u : Str, rem.count u ≤ (fmGet s.fm u).tmpfiles.length

/-- A Fetcher environment in which everything succeeds and the body is the
single byte `1`. -/
def demoEnv : FetchEnv :=
  { createOk := true, httpOk := true, bodyBytes := [1], bodyErrAtEnd := false,
    writeOks := fun _ => true }

/-- A run on the single argument `a` (fetched successfully), stopped before
teardown: the registry as the Publisher leaves it. -/
def demoPublishOne : RunState :=
  let sA := allocList ['d'] [(['a'], true)] initState
  let sD := dispatchList (fun _ => demoEnv) sA.urls 0 sA
  publishList sD.urls sD

/-- A run on the duplicated argument list `a a`, both fetches succeeding. -/
def demoRunTwo : RunOutcome :=
  run ['d'] [(['a'], true), (['a'], true)] (fun _ => demoEnv)

/-- A Fetcher environment in which every external call succeeds and the
response body is `body`. -/
def successEnv (body : List Nat) : FetchEnv :=
  { createOk := true, httpOk := true, bodyBytes := body, bodyErrAtEnd := false,
    writeOks := fun _ => true }

/-- A whole run on a single URL whose fetch succeeds with body `body`. -/
def runOneSuccess (d url : Str) (body : List Nat) : RunOutcome :=
  run d [(url, true)] (fun _ => successEnv body)

/-- Control location of the dispatcher within `main`. -/
inductive DPhase
  | looping
  | draining
  | returned
deriving DecidableEq

/-- A configuration of the dispatcher and its Fetchers: the URLs the range
loop has not yet reached, the number of Fetchers spawned, the number of
completion signals sent by Fetchers, the number of signals received by the
dispatcher, the dispatcher's control location, and the concurrency limit
(`*pflag`). -/
structure DConfig where
  pending : List Str
  spawned : Nat
  signaled : Nat
  consumed : Nat
  phase : DPhase
  limit : Nat
deriving DecidableEq

/-- The dispatcher's `routines` counter: spawned minus received. -/
def DConfig.routines (c : DConfig) : Nat := c.spawned - c.consumed

/-- The number of Fetchers actually running: spawned whose deferred
completion send — the last thing a Fetcher does — has not happened yet. -/
def DConfig.running (c : DConfig) : Nat := c.spawned - c.signaled

/-- One step of the dispatcher system.  `sig`: a running Fetcher finishes
and sends on `ch` (line 42).  `recvLoop`: at the top of a loop iteration
with `routines >= *pflag`, `<-ch` receives one signal and decrements
`routines` (lines 179-182).  `spawn`: the entry is present, so
`go getUrl(...)` starts a Fetcher and `routines` is incremented (lines
183-188).  `skip`: the entry is absent, so the iteration dispatches
nothing.  `toDrain`: the range loop runs out of URLs.  `recvDrain`: `<-ch`
of the final loop (lines 191-194).  `ret`: the final loop's condition
`routines > 0` fails and dispatch is complete. -/
inductive DStep : DConfig → DConfig → Prop
  | sig (c : DConfig) (h : c.signaled < c.spawned) :
      DStep c { c with signaled := c.signaled + 1 }
  | recvLoop (c : DConfig) (h : c.phase = DPhase.looping) (hp : c.pending ≠ [])
      (hfull : c.limit ≤ c.routines) (hs : c.consumed < c.signaled) :
      DStep c { c with consumed := c.consumed + 1 }
  | spawn (c : DConfig) (u : Str) (rest : List Str) (h : c.phase = DPhase.looping)
      (hp : c.pending = u :: rest) (hroom : c.routines < c.limit) :
      DStep c { c with pending := rest, spawned := c.spawned + 1 }
  | skip (c : DConfig) (u : Str) (rest : List Str) (h : c.phase = DPhase.looping)
      (hp : c.pending = u :: rest) (hroom : c.routines < c.limit) :
      DStep c { c with pending := rest }
  | toDrain (c : DConfig) (h : c.phase = DPhase.looping) (hp : c.pending = []) :
      DStep c { c with phase := DPhase.draining }
  | recvDrain (c : DConfig) (h : c.phase = DPhase.draining)
      (hr : 0 < c.routines) (hs : c.consumed < c.signaled) :
      DStep c { c with consumed := c.consumed + 1 }
  | ret (c : DConfig) (h : c.phase = DPhase.draining) (hr : c.routines = 0) :
      DStep c { c with phase := DPhase.returned }

/-- The starting configuration (line 176: `routines := 0`, channel empty,
the whole `urls` slice ahead). -/
def dInit (urls : List Str) (limit : Nat) : DConfig :=
  { pending := urls, spawned := 0, signaled := 0, consumed := 0,
    phase := DPhase.looping, limit := limit }

/-- Configurations reachable during a dispatcher run. -/
def DReach (urls : List Str) (limit : Nat) (c : DConfig) : Prop :=
  Relation.ReflTransGen DStep (dInit urls limit) c

/-- The inductive invariant of the dispatcher system. -/
def dInvariant (c : DConfig) : Prop :=
  c.consumed ≤ c.signaled ∧ c.signaled ≤ c.spawned ∧ c.routines ≤ c.limit
    ∧ (c.phase = DPhase.returned → c.spawned = c.consumed)

theorem splitSlash_ne_nil (s : Str) : splitSlash s ≠ [] := by
  cases s with
  | nil => simp [splitSlash]
  | cons c rest =>
    simp only [splitSlash]
    split
    · simp
    · cases h : splitSlash rest <;> simp

theorem splitSlash_exists_cons (s : Str) : ∃ a l, splitSlash s = a :: l := by
  cases h : splitSlash s with
  | nil => exact absurd h (splitSlash_ne_nil s)
  | cons a l => exact ⟨a, l, rfl⟩

theorem splitSlash_cons_slash (rest : Str) :
    splitSlash ('/' :: rest) = [] :: splitSlash rest := by
  simp [splitSlash]

theorem splitSlash_cons_other {c : Char} (hc : c ≠ '/') (rest : Str) {a : Str}
    {l : List Str} (h : splitSlash rest = a :: l) :
    splitSlash (c :: rest) = (c :: a) :: l := by
  simp [splitSlash, if_neg hc, h]

theorem splitSlash_concat_slash (xs : Str) :
    splitSlash (xs ++ ['/']) = splitSlash xs ++ [[]] := by
  induction xs with
  | nil => rfl
  | cons c rest ih =>
    by_cases hc : c = '/'
    · subst hc
      rw [List.cons_append, splitSlash_cons_slash, splitSlash_cons_slash, ih]
      rfl
    · obtain ⟨a, l, h⟩ := splitSlash_exists_cons rest
      have h2 : splitSlash (rest ++ ['/']) = a :: (l ++ [[]]) := by
        rw [ih, h]; rfl
      rw [List.cons_append, splitSlash_cons_other hc _ h2,
        splitSlash_cons_other hc _ h]
      rfl

theorem splitSlash_concat_other (xs : Str) {c : Char} (hc : c ≠ '/') :
    splitSlash (xs ++ [c]) =
      (splitSlash xs).dropLast ++ [(splitSlash xs).getLastD [] ++ [c]] := by
  induction xs with
  | nil =>
    rw [List.nil_append, splitSlash_cons_other hc [] rfl]
    rfl
  | cons a rest ih =>
    by_cases ha : a = '/'
    · subst ha
      rw [List.cons_append, splitSlash_cons_slash, splitSlash_cons_slash, ih]
      obtain ⟨b, l, h⟩ := splitSlash_exists_cons rest
      rw [h]
      cases l <;> simp [List.getLastD]
    · obtain ⟨b, l, h⟩ := splitSlash_exists_cons rest
      obtain ⟨b2, l2, h2⟩ := splitSlash_exists_cons (rest ++ [c])
      rw [List.cons_append, splitSlash_cons_other ha _ h2,
        splitSlash_cons_other ha _ h]
      rw [h, h2] at ih
      cases l with
      | nil =>
        simp only [List.dropLast_single, List.nil_append, List.getLastD_cons,
          List.getLastD_nil] at ih
        cases ih
        simp [List.getLastD_cons, List.getLastD_nil]
      | cons x m =>
        simp only [List.dropLast_cons₂, List.cons_append, List.getLastD_cons] at ih ⊢
        cases ih
        simp [List.getLastD_cons]

/-- The last piece of the `/`-split of `s` is the final `/`-delimited
segment of `s`. -/
theorem splitSlash_getLastD_eq_lastSegment (s : Str) :
    (splitSlash s).getLastD [] = lastSegment s := by
  induction s using List.reverseRecOn with
  | nil => simp [splitSlash, lastSegment]
  | append_singleton xs c ih =>
    by_cases hc : c = '/'
    · subst hc
      rw [splitSlash_concat_slash, List.getLastD_concat]
      simp [lastSegment]
    · rw [splitSlash_concat_other xs hc, List.getLastD_concat]
      have hseg : lastSegment (xs ++ [c]) = lastSegment xs ++ [c] := by
        simp [lastSegment, List.takeWhile_cons, hc]
      rw [hseg, ih]

theorem deriveFname_exampleRoot : deriveFname exampleUrlRoot = indexHtmlChars := by
  decide

/-- C9: for every normalized URL (one carrying an `http://` or `https://`
scheme), the destination filename derived by `prepUrl` equals the final
`/`-delimited path segment of the URL after the scheme and host are removed,
and equals `index.html` whenever that final segment is empty. -/
theorem C9_derived_destination_filename (url : Str)
    (_h : (strStartsWith url httpSchemeChars || strStartsWith url httpsSchemeChars) = true) :
    deriveFname url =
      if lastSegment (afterSchemeAndHost url) = [] then indexHtmlChars
      else lastSegment (afterSchemeAndHost url) := by
  simp only [deriveFname, afterSchemeAndHost, splitSlash_getLastD_eq_lastSegment]

/-- Witness for C9 at the concrete URL `http://example.com/a/b.txt`,
whose derived filename is `b.txt`. -/
theorem C9_derived_destination_filename_witness :
    (strStartsWith exampleUrlDeep httpSchemeChars
      || strStartsWith exampleUrlDeep httpsSchemeChars) = true
    ∧ deriveFname exampleUrlDeep =
        (if lastSegment (afterSchemeAndHost exampleUrlDeep) = [] then indexHtmlChars
         else lastSegment (afterSchemeAndHost exampleUrlDeep))
    ∧ deriveFname exampleUrlDeep = ['b', '.', 't', 'x', 't'] :=
  ⟨by decide, C9_derived_destination_filename exampleUrlDeep (by decide), by decide⟩

theorem readFull_spec_full (errAtEnd : Bool) (bytes : List Nat)
    (h : bufSize ≤ bytes.length) :
    readFull errAtEnd bytes = (bytes.take bufSize, bytes.drop bufSize, none) := by
  unfold readFull
  rw [if_pos h]

theorem readFull_spec_empty (errAtEnd : Bool) (bytes : List Nat)
    (h : bytes.length = 0) :
    readFull errAtEnd bytes =
      ([], [], some (if errAtEnd then ReadErr.other else ReadErr.eof)) := by
  unfold readFull
  rw [if_neg (by rw [h]; decide), if_pos h]

theorem readFull_spec_short (errAtEnd : Bool) (bytes : List Nat)
    (h0 : ¬bytes.length = 0) (h : bytes.length < bufSize) :
    readFull errAtEnd bytes =
      (bytes, [], some (if errAtEnd then ReadErr.other else ReadErr.unexpectedEof)) := by
  unfold readFull
  rw [if_neg (by omega), if_neg h0]

theorem bufSize_pos : 0 < bufSize := by decide

/-- Fuel one more than the remaining stream length always suffices for the
copy loop: the loop terminates on every finite body. -/
theorem copyLoopF_isSome (errAtEnd : Bool) (writeOks : Nat → Bool) :
    ∀ (fuel : Nat) (st : LoopState), st.toRead.length < fuel →
      (copyLoopF errAtEnd writeOks fuel st).isSome = true := by
  intro fuel
  induction fuel with
  | zero => intro st h; exact absurd h (Nat.not_lt_zero _)
  | succ f ih =>
    intro st h
    by_cases hb : bufSize ≤ st.toRead.length
    · rw [copyLoopF, readFull_spec_full _ _ hb]
      by_cases hw : writeOks st.writeCalls
      · simp only [hw, if_true]
        refine ih _ ?_
        have := bufSize_pos
        simp only [List.length_drop]
        omega
      · simp [hw]
    · by_cases h0 : st.toRead.length = 0
      · rw [copyLoopF, readFull_spec_empty _ _ h0]
        cases errAtEnd <;> simp
      · rw [copyLoopF, readFull_spec_short _ _ h0 (by omega)]
        cases errAtEnd
        · simp only [Bool.false_eq_true, if_false]
          by_cases hw : writeOks st.writeCalls
          · simp only [hw, if_true]
            refine ih _ ?_
            simp only [List.length_nil]
            omega
          · simp [hw]
        · simp

/-- A clean stream with all writes succeeding is copied whole: the loop
exits at end-of-stream with all bytes written and the temp file kept. -/
theorem copyLoopF_clean (writeOks : Nat → Bool) (hW : ∀ i, writeOks i = true) :
    ∀ (fuel : Nat) (st : LoopState), st.toRead.length < fuel →
      ∃ w, copyLoopF false writeOks fuel st =
        some (⟨[], st.written ++ st.toRead, w, st.removed⟩, LoopExit.cleanEof) := by
  intro fuel
  induction fuel with
  | zero => intro st h; exact absurd h (Nat.not_lt_zero _)
  | succ f ih =>
    intro st h
    by_cases hb : bufSize ≤ st.toRead.length
    · rw [copyLoopF, readFull_spec_full _ _ hb]
      simp only [hW st.writeCalls, if_true]
      obtain ⟨w, hw⟩ := ih
        ⟨st.toRead.drop bufSize, st.written ++ st.toRead.take bufSize,
          st.writeCalls + 1, st.removed⟩
        (by have := bufSize_pos; simp only [List.length_drop]; omega)
      refine ⟨w, ?_⟩
      rw [hw]
      simp
    · by_cases h0 : st.toRead.length = 0
      · rw [copyLoopF, readFull_spec_empty _ _ h0]
        refine ⟨st.writeCalls, ?_⟩
        have hbytes : st.toRead = [] := List.length_eq_zero.mp h0
        cases st
        simp_all
      · rw [copyLoopF, readFull_spec_short _ _ h0 (by omega)]
        simp only [Bool.false_eq_true, if_false, hW st.writeCalls, if_true]
        obtain ⟨w, hw⟩ := ih
          ⟨[], st.written ++ st.toRead, st.writeCalls + 1, st.removed⟩
          (by simp only [List.length_nil]; omega)
        refine ⟨w, ?_⟩
        rw [hw]
        simp

/-- C6: for every finite response body the Fetcher's chunked copy loop
terminates (whatever the write results and however the stream ends); and
when its reads succeed and all writes succeed it exits cleanly at
end-of-stream having written the whole body — the case of a final chunk
shorter than the 4096-byte buffer included, since `bytes` has arbitrary
length — without removing the temp file. -/
theorem C6_copy_loop_terminates (writeOks : Nat → Bool) (bytes : List Nat)
    (errAtEnd : Bool) :
    (copyLoop errAtEnd writeOks bytes).isSome = true
    ∧ ∃ fin, copyLoop false (fun _ => true) bytes = some (fin, LoopExit.cleanEof)
        ∧ fin.written = bytes ∧ fin.removed = false := by
  constructor
  · exact copyLoopF_isSome errAtEnd writeOks (bytes.length + 1) ⟨bytes, [], 0, false⟩
      (Nat.lt_succ_self _)
  · obtain ⟨w, hw⟩ := copyLoopF_clean (fun _ => true) (fun _ => rfl) (bytes.length + 1)
      ⟨bytes, [], 0, false⟩ (Nat.lt_succ_self _)
    exact ⟨_, hw, by simp, rfl⟩

/-- C4: every execution of the Fetcher sends exactly one value on the shared
completion channel, whichever exit path is taken (open failure, transport
failure, read error, write error, or success), by the `defer` at line 42. -/
theorem C4_fetcher_signals_exactly_once (env : FetchEnv) :
    (getUrl env).chanSends = 1 := by
  have hbody : (getUrlBody env).chanSends = 0 := by
    unfold getUrlBody
    split
    · rfl
    · split
      · rfl
      · match copyLoop env.bodyErrAtEnd env.writeOks env.bodyBytes with
        | some (fin, LoopExit.cleanEof) => rfl
        | some (fin, LoopExit.readFailed) => rfl
        | some (fin, LoopExit.writeFailed) => rfl
        | none => rfl
  simp [getUrl, hbody]

theorem alFind_set_self {β : Type} (l : List (Str × β)) (u : Str) (v : β) :
    alFind (alSet l u v) u = some v := by
  induction l with
  | nil => simp [alSet, alFind]
  | cons p rest ih =>
    obtain ⟨k, w⟩ := p
    by_cases hk : k = u
    · simp [alSet, hk, alFind]
    · simp [alSet, hk, alFind, ih]

theorem alFind_set_other {β : Type} (l : List (Str × β)) (u u' : Str) (v : β)
    (h : u' ≠ u) : alFind (alSet l u v) u' = alFind l u' := by
  have h' : ¬u = u' := Ne.symm h
  induction l with
  | nil => simp [alSet, alFind, h']
  | cons p rest ih =>
    obtain ⟨k, w⟩ := p
    by_cases hk : k = u
    · subst hk
      simp [alSet, alFind, h']
    · by_cases hk' : k = u'
      · subst hk'
        simp [alSet, alFind, hk]
      · simp [alSet, hk, alFind, hk', ih]

theorem fmGet_set_self (fm : FileMap) (u : Str) (v : filename) :
    fmGet (alSet fm u v) u = v := by
  simp [fmGet, alFind_set_self]

theorem fmGet_set_other (fm : FileMap) (u u' : Str) (v : filename) (h : u' ≠ u) :
    fmGet (alSet fm u v) u' = fmGet fm u' := by
  simp [fmGet, alFind_set_other _ _ _ _ h]

/-- Writing an entry's current value back (the no-op deferred write on
`prepUrl`'s failure path) changes no lookup. -/
theorem fmGet_set_same (fm : FileMap) (u u' : Str) :
    fmGet (alSet fm u (fmGet fm u)) u' = fmGet fm u' := by
  by_cases h : u' = u
  · subst h
    rw [fmGet_set_self]
  · exact fmGet_set_other fm u u' _ h

theorem allocStep_true (d : Str) (s : RunState) (arg : Str) :
    allocStep d s arg true =
      { s with
        fm := alSet s.fm (normalizeUrl arg)
          { n := (fmGet s.fm (normalizeUrl arg)).n
            name := deriveFname (normalizeUrl arg)
            tmpfiles := (fmGet s.fm (normalizeUrl arg)).tmpfiles ++
              [tmpPath d (deriveFname (normalizeUrl arg)) s.ctr] }
        ctr := s.ctr + 1
        urls := s.urls ++ [normalizeUrl arg]
        tmp := alSet s.tmp (tmpPath d (deriveFname (normalizeUrl arg)) s.ctr) [] } := rfl

theorem allocStep_false (d : Str) (s : RunState) (arg : Str) :
    allocStep d s arg false =
      { s with
        fm := alSet s.fm (normalizeUrl arg) (fmGet s.fm (normalizeUrl arg))
        stderrLines := s.stderrLines + 1 } := rfl

theorem allocStep_inv (d : Str) (s : RunState) (arg : Str) (ok : Bool)
    (h : allocInv s) : allocInv (allocStep d s arg ok) := by
  intro u
  cases ok with
  | false =>
    rw [allocStep_false]
    constructor
    · rw [fmGet_set_same]
      exact (h u).1
    · rw [fmGet_set_same]
      exact (h u).2
  | true =>
    rw [allocStep_true]
    by_cases hu : u = normalizeUrl arg
    · rw [hu, fmGet_set_self]
      refine ⟨(h (normalizeUrl arg)).1, ?_⟩
      have h2 := (h (normalizeUrl arg)).2
      simp [List.count_append, List.count_singleton_self, h2]
    · rw [fmGet_set_other _ _ _ _ hu]
      refine ⟨(h u).1, ?_⟩
      have hne : ¬(normalizeUrl arg = u) := fun hh => hu hh.symm
      rw [List.count_append, List.count_singleton]
      simp only [beq_iff_eq, if_neg hne, Nat.add_zero]
      exact (h u).2

theorem allocList_inv (d : Str) : ∀ (args : List (Str × Bool)) (s : RunState),
    allocInv s → allocInv (allocList d args s)
  | [], _, h => h
  | (arg, ok) :: rest, s, h =>
    allocList_inv d rest _ (allocStep_inv d s arg ok h)

theorem initState_allocInv : allocInv initState := by
  intro u
  simp [initState, fmGet, alFind, filename.zero]

/-- The allocation phase never touches `urls` on a failing argument and
appends one occurrence on a successful one; it never sets `oob`. -/
theorem allocStep_oob (d : Str) (s : RunState) (arg : Str) (ok : Bool) :
    (allocStep d s arg ok).oob = s.oob := by
  cases ok <;> simp [allocStep, prepUrl]

theorem allocList_oob (d : Str) : ∀ (args : List (Str × Bool)) (s : RunState),
    (allocList d args s).oob = s.oob
  | [], _ => rfl
  | (arg, ok) :: rest, s => by
    rw [allocList, allocList_oob d rest, allocStep_oob]

theorem dispatchStep_char (s : RunState) (url : Str) (env : FetchEnv) (e : filename)
    (hf : alFind s.fm url = some e) (hn : e.n < e.tmpfiles.length) :
    ∃ tmp2 k, dispatchStep s url env =
      { s with
        fm := alSet s.fm url { e with n := e.n + 1 }
        tmp := tmp2
        stderrLines := s.stderrLines + k } := by
  obtain ⟨p, hp⟩ : ∃ p, e.tmpfiles.get? e.n = some p := ⟨_, List.get?_eq_get hn⟩
  simp only [dispatchStep, hf, hp]
  cases (getUrl env).file with
  | some bytes => exact ⟨_, _, rfl⟩
  | none => exact ⟨_, _, rfl⟩

theorem dispatchStep_inv (s : RunState) (url : Str) (env : FetchEnv) (rest : List Str)
    (h : dispInv (url :: rest) s) :
    dispInv rest (dispatchStep s url env)
    ∧ (dispatchStep s url env).oob = s.oob
    ∧ (∀ u, (fmGet (dispatchStep s url env).fm u).tmpfiles = (fmGet s.fm u).tmpfiles)
    ∧ (dispatchStep s url env).urls = s.urls := by
  have hurl := h url
  rw [List.count_cons_self] at hurl
  cases hf : alFind s.fm url with
  | none =>
    exfalso
    have hz : fmGet s.fm url = filename.zero := by simp [fmGet, hf]
    rw [hz] at hurl
    simp [filename.zero] at hurl
  | some e =>
    have hge : fmGet s.fm url = e := by simp [fmGet, hf]
    rw [hge] at hurl
    have hn : e.n < e.tmpfiles.length := by omega
    obtain ⟨tmp2, k, hchar⟩ := dispatchStep_char s url env e hf hn
    rw [hchar]
    refine ⟨?_, rfl, ?_, rfl⟩
    · intro u
      by_cases hu : u = url
      · subst hu
        simp only [fmGet_set_self]
        simpa using by omega
      · simp only [fmGet_set_other _ _ _ _ hu]
        have := h u
        rw [List.count_cons_of_ne hu] at this
        exact this
    · intro u
      by_cases hu : u = url
      · subst hu
        rw [fmGet_set_self, hge]
      · rw [fmGet_set_other _ _ _ _ hu]

theorem dispatchList_props (envs : Nat → FetchEnv) :
    ∀ (rem : List Str) (i : Nat) (s : RunState), dispInv rem s →
      dispInv [] (dispatchList envs rem i s)
      ∧ (dispatchList envs rem i s).oob = s.oob
      ∧ (∀ u, (fmGet (dispatchList envs rem i s).fm u).tmpfiles
            = (fmGet s.fm u).tmpfiles)
      ∧ (dispatchList envs rem i s).urls = s.urls
  | [], _, s, h => ⟨h, rfl, fun _ => rfl, rfl⟩
  | url :: rest, i, s, h => by
    obtain ⟨h1, h2, h3, h4⟩ := dispatchStep_inv s url (envs i) rest h
    obtain ⟨g1, g2, g3, g4⟩ := dispatchList_props envs rest (i + 1) _ h1
    rw [dispatchList]
    exact ⟨g1, g2.trans h2, fun u => (g3 u).trans (h3 u), g4.trans h4⟩

theorem renamesFor_append_one (u v src nm : Str) (evs : List (Str × Str × Str)) :
    renamesFor u (evs ++ [(v, src, nm)])
      = renamesFor u evs ++ (if v = u then [(src, nm)] else []) := by
  by_cases hv : v = u <;> simp [renamesFor, List.filter_append, hv]

theorem publishStep_char (s : RunState) (url src : Str) (tl : List Str)
    (hsrc : (fmGet s.fm url).tmpfiles = src :: tl) :
    ∃ dest2, publishStep s url =
      { s with
        fm := alSet s.fm url { fmGet s.fm url with tmpfiles := tl }
        tmp := alRemove s.tmp src
        dest := dest2
        renames := s.renames ++ [(url, src, (fmGet s.fm url).name)] } := by
  simp only [publishStep, hsrc]
  cases alFind s.tmp src <;> exact ⟨_, rfl⟩

theorem publishList_props :
    ∀ (rem : List Str) (s : RunState), pubInv rem s →
      (publishList rem s).oob = s.oob
      ∧ (∀ u, renamesFor u (publishList rem s).renames
            = renamesFor u s.renames
              ++ ((fmGet s.fm u).tmpfiles.take (rem.count u)).map
                  (fun p => (p, (fmGet s.fm u).name)))
      ∧ (∀ u, (fmGet (publishList rem s).fm u).tmpfiles
            = (fmGet s.fm u).tmpfiles.drop (rem.count u))
      ∧ (∀ u, (fmGet (publishList rem s).fm u).name = (fmGet s.fm u).name)
  | [], s, _ => by
    refine ⟨rfl, fun u => ?_, fun u => ?_, fun u => rfl⟩ <;> simp [publishList]
  | url :: rest, s, h => by
    have hurl := h url
    rw [List.count_cons_self] at hurl
    obtain ⟨src, tl, hsrc⟩ : ∃ src tl, (fmGet s.fm url).tmpfiles = src :: tl := by
      cases hc : (fmGet s.fm url).tmpfiles with
      | nil => rw [hc] at hurl; simp at hurl
      | cons a l => exact ⟨a, l, rfl⟩
    obtain ⟨dest2, hchar⟩ := publishStep_char s url src tl hsrc
    have hinv : pubInv rest (publishStep s url) := by
      intro u
      rw [hchar]
      by_cases hu : u = url
      · subst hu
        simp only [fmGet_set_self]
        rw [hsrc] at hurl
        simp only [List.length_cons] at hurl
        omega
      · simp only [fmGet_set_other _ _ _ _ hu]
        have := h u
        rw [List.count_cons_of_ne hu] at this
        exact this
    obtain ⟨g1, g2, g3, g4⟩ := publishList_props rest (publishStep s url) hinv
    rw [publishList]
    refine ⟨?_, fun u => ?_, fun u => ?_, fun u => ?_⟩
    · rw [g1, hchar]
    · rw [g2 u, hchar]
      by_cases hu : u = url
      · subst hu
        simp only [fmGet_set_self, renamesFor_append_one, if_pos rfl,
          List.count_cons_self, hsrc, List.take_succ_cons, List.map_cons]
        simp [List.append_assoc]
      · simp only [fmGet_set_other _ _ _ _ hu, renamesFor_append_one,
          if_neg (Ne.symm hu)]
        rw [List.count_cons_of_ne hu]
        simp
    · rw [g3 u, hchar]
      by_cases hu : u = url
      · subst hu
        simp only [fmGet_set_self, List.count_cons_self, hsrc, List.drop_succ_cons]
      · simp only [fmGet_set_other _ _ _ _ hu]
        rw [List.count_cons_of_ne hu]
    · rw [g4 u, hchar]
      by_cases hu : u = url
      · subst hu
        simp only [fmGet_set_self]
      · simp only [fmGet_set_other _ _ _ _ hu]

theorem allocStep_renames (d : Str) (s : RunState) (arg : Str) (ok : Bool) :
    (allocStep d s arg ok).renames = s.renames := by
  cases ok
  · rw [allocStep_false]
  · rw [allocStep_true]

theorem allocList_renames (d : Str) : ∀ (args : List (Str × Bool)) (s : RunState),
    (allocList d args s).renames = s.renames
  | [], _ => rfl
  | (arg, ok) :: rest, s => by
    rw [allocList, allocList_renames d rest, allocStep_renames]

theorem dispatchStep_renames (s : RunState) (url : Str) (env : FetchEnv) :
    (dispatchStep s url env).renames = s.renames := by
  simp only [dispatchStep]
  cases alFind s.fm url with
  | none => rfl
  | some e =>
    dsimp only
    cases e.tmpfiles.get? e.n with
    | none => rfl
    | some p =>
      dsimp only
      cases (getUrl env).file with
      | some bytes => rfl
      | none => rfl

theorem dispatchList_renames (envs : Nat → FetchEnv) :
    ∀ (rem : List Str) (i : Nat) (s : RunState),
      (dispatchList envs rem i s).renames = s.renames
  | [], _, _ => rfl
  | url :: rest, i, s => by
    rw [dispatchList, dispatchList_renames envs rest, dispatchStep_renames]

theorem publishStep_stderr (s : RunState) (url : Str) :
    (publishStep s url).stderrLines = s.stderrLines := by
  simp only [publishStep]
  cases (fmGet s.fm url).tmpfiles with
  | nil => rfl
  | cons src tl =>
    cases alFind s.tmp src with
    | none => simp [renameReported]
    | some bytes => simp [renameReported]

theorem publishList_stderr : ∀ (rem : List Str) (s : RunState),
    (publishList rem s).stderrLines = s.stderrLines
  | [], _ => rfl
  | url :: rest, s => by
    rw [publishList, publishList_stderr rest, publishStep_stderr]

theorem teardown_oob (s : RunState) : (teardown s).state.oob = s.oob := by
  unfold teardown
  split <;> rfl

/-- C7 counterexample: after the Publisher's pop, a registry entry of the
single-URL demo run — a state the run reaches before teardown — has
`tmpfiles` shorter than `n`, so the claimed invariant does not hold at
every reachable state of a run. -/
theorem C7_counterexample_publish_breaks_invariant :
    (fmGet demoPublishOne.fm (normalizeUrl ['a'])).tmpfiles.length
      < (fmGet demoPublishOne.fm (normalizeUrl ['a'])).n := by decide

/-- C7 as amended: at every state from process start through the end of the
dispatch phase — that is, before the Publisher starts front-popping
`tmpfiles` — every registry entry satisfies
`occurrenceCount <= len(tempFilePaths)`: allocation appends a path before
dispatch ever increments the count, and dispatch increments the count at
most once per queued path.  States are indexed by the number `i` of
arguments allocated so far, then by the number `j` of URLs dispatched so
far. -/
theorem C7_amended_invariant_until_dispatch_end (d : Str)
    (args : List (Str × Bool)) (envs : Nat → FetchEnv) (i j : Nat) (u : Str) :
    (fmGet (allocList d (args.take i) initState).fm u).n
        ≤ (fmGet (allocList d (args.take i) initState).fm u).tmpfiles.length
    ∧ (fmGet (dispatchList envs ((allocList d args initState).urls.take j) 0
          (allocList d args initState)).fm u).n
        ≤ (fmGet (dispatchList envs ((allocList d args initState).urls.take j) 0
          (allocList d args initState)).fm u).tmpfiles.length := by
  constructor
  · have h := allocList_inv d (args.take i) initState initState_allocInv u
    rw [h.1]
    exact Nat.zero_le _
  · have hA := allocList_inv d args initState initState_allocInv
    have hdisp : dispInv ((allocList d args initState).urls.take j)
        (allocList d args initState) := by
      intro v
      rw [(hA v).1, (hA v).2, Nat.zero_add]
      exact List.Sublist.count_le (List.take_sublist _ _) v
    have := (dispatchList_props envs _ 0 _ hdisp).1 u
    simpa using this

/-- C10: in every run — whatever the arguments, allocation results and fetch
outcomes — every slice index taken is in range: the Dispatcher's
`tmpfiles[n]` and the Publisher's `tmpfiles[0]` / `tmpfiles[1:]` never go
out of bounds (`oob` tracks any access where Go would panic). -/
theorem C10_no_out_of_range_access (d : Str) (args : List (Str × Bool))
    (envs : Nat → FetchEnv) : (run d args envs).state.oob = false := by
  unfold run
  rw [teardown_oob]
  have hA := allocList_inv d args initState initState_allocInv
  have hAoob : (allocList d args initState).oob = false := by
    rw [allocList_oob]
    rfl
  have hdisp : dispInv (allocList d args initState).urls
      (allocList d args initState) := by
    intro v
    rw [(hA v).1, (hA v).2, Nat.zero_add]
  obtain ⟨g1, g2, g3, g4⟩ := dispatchList_props envs _ 0 _ hdisp
  have hpub : pubInv (dispatchList envs (allocList d args initState).urls 0
      (allocList d args initState)).urls
      (dispatchList envs (allocList d args initState).urls 0
        (allocList d args initState)) := by
    intro v
    rw [g4, g3 v, (hA v).2]
  obtain ⟨p1, p2, p3, p4⟩ := publishList_props _ _ hpub
  rw [p1, g2, hAoob]

/-- C1 counterexample: with the argument `a` given twice and both fetches
succeeding, the Publisher renames BOTH queued temp files onto the
destination name `index.html` (the second occurrence's temp path
`d/index.html_x` included), and the working directory ends empty — the
claim that later occurrences' temp files are never renamed into place and
remain in the working directory fails on this run. -/
theorem C1_counterexample_all_occurrences_renamed :
    demoRunTwo.state.renames =
      [(normalizeUrl ['a'], tmpPath ['d'] indexHtmlChars 0, indexHtmlChars),
       (normalizeUrl ['a'], tmpPath ['d'] indexHtmlChars 1, indexHtmlChars)]
    ∧ demoRunTwo.state.tmp = [] := by decide

/-- C1 as amended: for every run and every URL, the Publisher attempts one
rename per element of the `urls` slice (one per allocated occurrence), each
popping and renaming the then-front temp path of the entry onto the
destination name: the rename attempts recorded for a URL are exactly its
queued temp paths in order, and afterwards its queue is empty — no temp
file stays queued behind the first one. -/
theorem C1_amended_publisher_renames_every_queued_path (d : Str)
    (args : List (Str × Bool)) (envs : Nat → FetchEnv) (u : Str) :
    renamesFor u
        (publishList
          (dispatchList envs (allocList d args initState).urls 0
            (allocList d args initState)).urls
          (dispatchList envs (allocList d args initState).urls 0
            (allocList d args initState))).renames
      = (fmGet (dispatchList envs (allocList d args initState).urls 0
            (allocList d args initState)).fm u).tmpfiles.map
          (fun p => (p, (fmGet (dispatchList envs (allocList d args initState).urls 0
            (allocList d args initState)).fm u).name))
    ∧ (fmGet (publishList
          (dispatchList envs (allocList d args initState).urls 0
            (allocList d args initState)).urls
          (dispatchList envs (allocList d args initState).urls 0
            (allocList d args initState))).fm u).tmpfiles = [] := by
  have hA := allocList_inv d args initState initState_allocInv
  have hdisp : dispInv (allocList d args initState).urls
      (allocList d args initState) := by
    intro v
    rw [(hA v).1, (hA v).2, Nat.zero_add]
  obtain ⟨g1, g2, g3, g4⟩ := dispatchList_props envs _ 0 _ hdisp
  have hcount : ∀ v,
      (dispatchList envs (allocList d args initState).urls 0
        (allocList d args initState)).urls.count v
      = (fmGet (dispatchList envs (allocList d args initState).urls 0
          (allocList d args initState)).fm v).tmpfiles.length := by
    intro v
    rw [g4, g3 v, (hA v).2]
  have hpub : pubInv (dispatchList envs (allocList d args initState).urls 0
      (allocList d args initState)).urls
      (dispatchList envs (allocList d args initState).urls 0
        (allocList d args initState)) := by
    intro v
    rw [hcount v]
  obtain ⟨p1, p2, p3, p4⟩ := publishList_props _ _ hpub
  have hren0 : (dispatchList envs (allocList d args initState).urls 0
      (allocList d args initState)).renames = [] := by
    rw [dispatchList_renames, allocList_renames]
    rfl
  constructor
  · rw [p2 u, hren0, hcount u, List.take_length]
    simp [renamesFor]
  · rw [p3 u, hcount u, List.drop_length]

/-- C8: when `os.CreateTemp` fails, `prepUrl` returns the error to the
caller, every registry lookup is unchanged — in particular the failing call
appends no temp path and sets no destination name for the URL's entry — and
`main`'s allocation loop does not add the URL to the dispatch list. -/
theorem C8_alloc_failure_returns_error_and_changes_nothing (fm : FileMap)
    (url0 d : Str) (k : Nat) (s : RunState) (arg : Str) :
    (prepUrl fm url0 d false k).ret = Except.error ()
    ∧ (∀ u, fmGet (prepUrl fm url0 d false k).fm u = fmGet fm u)
    ∧ (fmGet (prepUrl fm url0 d false k).fm (normalizeUrl url0)).tmpfiles
        = (fmGet fm (normalizeUrl url0)).tmpfiles
    ∧ (fmGet (prepUrl fm url0 d false k).fm (normalizeUrl url0)).name
        = (fmGet fm (normalizeUrl url0)).name
    ∧ (allocStep d s arg false).urls = s.urls := by
  have hget : ∀ u, fmGet (prepUrl fm url0 d false k).fm u = fmGet fm u := by
    intro u
    show fmGet (alSet fm (normalizeUrl url0) (fmGet fm (normalizeUrl url0))) u
      = fmGet fm u
    exact fmGet_set_same fm (normalizeUrl url0) u
  refine ⟨rfl, hget, ?_, ?_, ?_⟩
  · rw [hget]
  · rw [hget]
  · rw [allocStep_false]

/-- C2: the publish path never reports a rename failure, whatever its
cause: the condition at goget.go lines 151-153 tests the stale (nil)
`MkdirTemp` error instead of the discarded `os.Rename` result, so it is
false for every rename outcome — including failures that are not
`ErrNotExist`, which the claim says are reported — and the publish loop
leaves the stderr line count unchanged in every run.  (Processing of the
remaining URLs does continue, as the claim states.) -/
theorem C2_rename_failure_never_reported :
    (∀ renameResult : Option GoErr, renameReported none renameResult = false)
    ∧ (∀ (rem : List Str) (s : RunState),
        (publishList rem s).stderrLines = s.stderrLines) := by
  constructor
  · intro renameResult
    rfl
  · exact publishList_stderr

theorem getUrl_success (body : List Nat) :
    getUrl (successEnv body) = ⟨1, some body, 0⟩ := by
  obtain ⟨w, hw⟩ := copyLoopF_clean (fun _ => true) (fun _ => rfl)
    (body.length + 1) ⟨body, [], 0, false⟩ (Nat.lt_succ_self _)
  simp only [List.nil_append] at hw
  simp [getUrl, getUrlBody, successEnv, copyLoop, hw]

/-- C5: for every URL and every response body whose reads and writes all
succeed, after the Fetcher terminates and the Publisher runs, the
destination filename holds exactly the bytes of that body, and the working
directory is empty and removed (run exits 0). -/
theorem C5_success_publishes_exact_body (d url : Str) (body : List Nat) :
    alFind (runOneSuccess d url body).state.dest (deriveFname (normalizeUrl url))
        = some body
    ∧ (runOneSuccess d url body).state.tmp = []
    ∧ (runOneSuccess d url body).dirRemoved = true
    ∧ (runOneSuccess d url body).exitCode = 0 := by
  have hget := getUrl_success body
  have hrun : runOneSuccess d url body =
      teardown
        { fm := [(normalizeUrl url, ⟨1, deriveFname (normalizeUrl url), []⟩)]
          urls := [normalizeUrl url]
          ctr := 1
          tmp := []
          dest := [(deriveFname (normalizeUrl url), body)]
          stderrLines := 0
          renames := [(normalizeUrl url,
            tmpPath d (deriveFname (normalizeUrl url)) 0,
            deriveFname (normalizeUrl url))]
          oob := false } := by
    simp [runOneSuccess, run, allocList, allocStep_true, initState, dispatchList,
      dispatchStep, publishList, publishStep, fmGet, alFind, alSet, alRemove,
      filename.zero, hget, renameReported]
  rw [hrun]
  simp [teardown, alFind]

theorem dStep_inv {c c' : DConfig} (h : DStep c c') (hc : dInvariant c) :
    dInvariant c' := by
  obtain ⟨h1, h2, h3, h4⟩ := hc
  unfold dInvariant DConfig.routines at *
  cases h with
  | sig h =>
    dsimp only
    exact ⟨by omega, by omega, by omega, fun hph => h4 hph⟩
  | recvLoop h hp hfull hs =>
    unfold DConfig.routines at hfull
    dsimp only
    refine ⟨by omega, by omega, by omega, fun hph => ?_⟩
    rw [h] at hph
    exact absurd hph (by decide)
  | spawn u rest h hp hroom =>
    unfold DConfig.routines at hroom
    dsimp only
    refine ⟨by omega, by omega, by omega, fun hph => ?_⟩
    rw [h] at hph
    exact absurd hph (by decide)
  | skip u rest h hp hroom =>
    dsimp only
    refine ⟨h1, h2, h3, fun hph => ?_⟩
    rw [h] at hph
    exact absurd hph (by decide)
  | toDrain h hp =>
    dsimp only
    exact ⟨h1, h2, h3, fun hph => absurd hph (by decide)⟩
  | recvDrain h hr hs =>
    unfold DConfig.routines at hr
    dsimp only
    refine ⟨by omega, by omega, by omega, fun hph => ?_⟩
    rw [h] at hph
    exact absurd hph (by decide)
  | ret h hr =>
    unfold DConfig.routines at hr
    dsimp only
    exact ⟨h1, h2, h3, fun _ => by omega⟩

theorem dReach_inv (urls : List Str) (limit : Nat) (c : DConfig)
    (hreach : DReach urls limit c) : dInvariant c := by
  induction hreach with
  | refl =>
    refine ⟨Nat.le_refl _, Nat.le_refl _, ?_, ?_⟩
    · show 0 - 0 ≤ limit
      omega
    · intro hph
      simp [dInit] at hph
  | tail _ hstep ih => exact dStep_inv hstep ih

theorem dStep_limit {c c' : DConfig} (h : DStep c c') : c'.limit = c.limit := by
  cases h <;> rfl

theorem dReach_limit (urls : List Str) (limit : Nat) (c : DConfig)
    (hreach : DReach urls limit c) : c.limit = limit := by
  induction hreach with
  | refl => rfl
  | tail _ hstep ih => exact (dStep_limit hstep).trans ih

/-- C3: for every URL list and every concurrency limit `N >= 1`, in every
reachable configuration of a dispatcher run at most `N` Fetchers are
running simultaneously, and once the dispatcher has returned both its
in-flight count and the number of running Fetchers have drained to 0. -/
theorem C3_concurrency_bound_and_drain (urls : List Str) (limit : Nat)
    (c : DConfig) (hlim : 1 ≤ limit) (hreach : DReach urls limit c) :
    c.running ≤ limit
    ∧ (c.phase = DPhase.returned → c.routines = 0 ∧ c.running = 0) := by
  obtain ⟨h1, h2, h3, h4⟩ := dReach_inv urls limit c hreach
  have hl := dReach_limit urls limit c hreach
  unfold DConfig.routines at *
  unfold DConfig.running
  rw [hl] at h3
  constructor
  · omega
  · intro hph
    have := h4 hph
    omega

/-- Witness for C3: one spawn step from the initial configuration on the
single URL `a` with limit 1. -/
theorem C3_concurrency_bound_and_drain_witness :
    (1 ≤ 1)
    ∧ ({ pending := [], spawned := 1, signaled := 0, consumed := 0,
         phase := DPhase.looping, limit := 1 } : DConfig).running ≤ 1
    ∧ (({ pending := [], spawned := 1, signaled := 0, consumed := 0,
          phase := DPhase.looping, limit := 1 } : DConfig).phase = DPhase.returned →
        ({ pending := [], spawned := 1, signaled := 0, consumed := 0,
           phase := DPhase.looping, limit := 1 } : DConfig).routines = 0
        ∧ ({ pending := [], spawned := 1, signaled := 0, consumed := 0,
             phase := DPhase.looping, limit := 1 } : DConfig).running = 0) :=
  ⟨by decide,
    C3_concurrency_bound_and_drain [['a']] 1 _ (by decide)
      (Relation.ReflTransGen.single
        (DStep.spawn (dInit [['a']] 1) ['a'] [] rfl rfl (by decide)))⟩


end Goget
